import Mathlib

/-!
# Verification of the `squeue` file-backed FIFO queue

Shallow embedding of `src/squeue/squeue.py` and `src/squeue/metadata.py`.

Conventions of the embedding:
* Python `bytes` values become `List Nat` (each element a byte value).
* Python binary *strings* (strings over the characters `'0'`/`'1'`, produced
  by `"{0:b}".format` and consumed by `int(s, base=2)`) become `List Nat`
  whose elements are the bits; the one-character flag strings `'0'`/`'1'`
  become the one-element lists `[0]`/`[1]`.
* A Python call that raises (e.g. `int.to_bytes` overflowing, or unpacking
  `None` returned by `_deserialize_metadata`) is modelled by `Option`, the
  exception being `none`.
* The OS file is modelled as the byte list together with the per-instance
  `read_position`; every public operation of `Squeue` first seeks (to the
  end for `put`, to `read_position` for `get`/`empty`), so the file-descriptor
  offset carries no state between public calls and reads/writes are modelled
  at their absolute positions.
-/

namespace SqueueModel

/-- `"{0:b}".format value`: the binary digits of `value`, most significant
first, with `0` rendered as the single digit `0`.  The first argument is
recursion fuel; `bitsOfAux n n` is always fully evaluated because the value
halves at every step. -/
def bitsOfAux : Nat → Nat → List Nat
  | _, 0 => [0]
  | _, 1 => [1]
  | 0, _ => []
  | fuel + 1, n => bitsOfAux fuel (n / 2) ++ [n % 2]

/-- `"{0:b}".format value`. -/
def bitsOf (n : Nat) : List Nat := bitsOfAux n n

/-- `Squeue._int_to_binary` / `Metadata._int_to_binary`: binary string of
`value`, left-padded with `'0'` to `min_size` when a minimum size is given. -/
def int_to_binary (value : Nat) : Option Nat → List Nat
  | none => bitsOf value
  | some min_size =>
      let s := bitsOf value
      if s.length < min_size then List.replicate (min_size - s.length) 0 ++ s
      else s

/-- `Squeue._binary_to_int` / `Metadata._binary_to_int`: `int(binary, base=2)`. -/
def binary_to_int (binary : List Nat) : Nat :=
  binary.foldl (fun acc b => 2 * acc + b) 0

/-- `Squeue._bytes_to_int` / `Metadata._bytes_to_int`:
`int.from_bytes(data, byteorder='big')`. -/
def bytes_to_int (data : List Nat) : Nat :=
  data.foldl (fun acc b => 256 * acc + b) 0

/-- Big-endian byte expansion of `value` into exactly `length` bytes
(the digits written by `int.to_bytes` when it does not overflow). -/
def toBytesBE : Nat → Nat → List Nat
  | 0, _ => []
  | n + 1, v => toBytesBE n (v / 256) ++ [v % 256]

/-- `Squeue._int_to_bytes` / `Metadata._int_to_bytes`:
`value.to_bytes(length, byteorder='big')`; `none` models the `OverflowError`
raised when `value` does not fit in `length` bytes. -/
def int_to_bytes (length value : Nat) : Option (List Nat) :=
  if value < 256 ^ length then some (toBytesBE length value) else none

/-- `Squeue._split_on_portions`. -/
def split_on_portions (data : List Nat) : List Nat → List (List Nat)
  | [] => []
  | portion :: portions =>
      data.take portion :: split_on_portions (data.drop portion) portions

end SqueueModel

namespace SqueueModel

/-! ## Basic facts about the bit/byte helpers -/

theorem foldl_radix (B : Nat) (l : List Nat) (acc : Nat) :
    l.foldl (fun a b => B * a + b) acc =
      acc * B ^ l.length + l.foldl (fun a b => B * a + b) 0 := by
  induction l generalizing acc with
  | nil => simp
  | cons x t ih =>
      simp only [List.foldl_cons, List.length_cons]
      rw [ih (B * acc + x), ih (B * 0 + x)]
      ring

theorem binary_to_int_cons (b : Nat) (t : List Nat) :
    binary_to_int (b :: t) = b * 2 ^ t.length + binary_to_int t := by
  simp only [binary_to_int, List.foldl_cons]
  rw [foldl_radix 2 t (2 * 0 + b)]
  ring

theorem binary_to_int_append (xs ys : List Nat) :
    binary_to_int (xs ++ ys) =
      binary_to_int xs * 2 ^ ys.length + binary_to_int ys := by
  induction xs with
  | nil => simp [binary_to_int]
  | cons x t ih =>
      rw [List.cons_append, binary_to_int_cons, binary_to_int_cons, ih]
      simp only [List.length_append]
      ring

theorem binary_to_int_replicate_zero (n : Nat) (xs : List Nat) :
    binary_to_int (List.replicate n 0 ++ xs) = binary_to_int xs := by
  rw [binary_to_int_append]
  have h0 : binary_to_int (List.replicate n 0) = 0 := by
    induction n with
    | zero => rfl
    | succ k ih => rw [List.replicate_succ, binary_to_int_cons, ih]; simp
  simp [h0]

theorem bytes_to_int_append (xs ys : List Nat) :
    bytes_to_int (xs ++ ys) =
      bytes_to_int xs * 256 ^ ys.length + bytes_to_int ys := by
  induction xs with
  | nil => simp [bytes_to_int]
  | cons x t ih =>
      have hc : ∀ b (u : List Nat),
          bytes_to_int (b :: u) = b * 256 ^ u.length + bytes_to_int u := by
        intro b u
        simp only [bytes_to_int, List.foldl_cons]
        rw [foldl_radix 256 u (256 * 0 + b)]
        ring
      rw [List.cons_append, hc, hc, ih]
      simp only [List.length_append]
      ring

theorem bitsOfAux_eval (fuel n : Nat) (h : n ≤ fuel) :
    binary_to_int (bitsOfAux fuel n) = n := by
  induction fuel generalizing n with
  | zero =>
      interval_cases n
      rfl
  | succ k ih =>
      match n with
      | 0 => rfl
      | 1 => rfl
      | n + 2 =>
          rw [show bitsOfAux (k + 1) (n + 2) =
              bitsOfAux k ((n + 2) / 2) ++ [(n + 2) % 2] from rfl]
          rw [binary_to_int_append]
          have hdiv : (n + 2) / 2 ≤ k := by omega
          rw [ih _ hdiv]
          have : binary_to_int [(n + 2) % 2] = (n + 2) % 2 := by
            simp [binary_to_int]
          rw [this]
          simp only [List.length_cons, List.length_nil, pow_one]
          omega

theorem binary_to_int_bitsOf (n : Nat) : binary_to_int (bitsOf n) = n :=
  bitsOfAux_eval n n le_rfl

theorem bitsOfAux_bits (fuel n : Nat) :
    ∀ b ∈ bitsOfAux fuel n, b ≤ 1 := by
  induction fuel generalizing n with
  | zero =>
      intro b hb
      match n with
      | 0 => simp [bitsOfAux] at hb; omega
      | 1 => simp [bitsOfAux] at hb; omega
      | _ + 2 => simp [bitsOfAux] at hb
  | succ k ih =>
      intro b hb
      match n with
      | 0 => simp [bitsOfAux] at hb; omega
      | 1 => simp [bitsOfAux] at hb; omega
      | n + 2 =>
          rw [show bitsOfAux (k + 1) (n + 2) =
              bitsOfAux k ((n + 2) / 2) ++ [(n + 2) % 2] from rfl] at hb
          rcases List.mem_append.1 hb with h | h
          · exact ih _ b h
          · simp at h
            omega

theorem bitsOf_bits (n : Nat) : ∀ b ∈ bitsOf n, b ≤ 1 :=
  bitsOfAux_bits n n

theorem bitsOfAux_length_le (fuel n k : Nat) (hfuel : n ≤ fuel)
    (hk : 0 < k) (hn : n < 2 ^ k) : (bitsOfAux fuel n).length ≤ k := by
  induction fuel generalizing n k with
  | zero =>
      interval_cases n
      simpa [bitsOfAux] using hk
  | succ f ih =>
      match n with
      | 0 => simpa [bitsOfAux] using hk
      | 1 => simpa [bitsOfAux] using hk
      | n + 2 =>
          rw [show bitsOfAux (f + 1) (n + 2) =
              bitsOfAux f ((n + 2) / 2) ++ [(n + 2) % 2] from rfl]
          rw [List.length_append]
          have hk2 : 2 ≤ k := by
            by_contra hlt
            interval_cases k <;> omega
          have hdiv : (n + 2) / 2 < 2 ^ (k - 1) := by
            have : 2 ^ k = 2 ^ (k - 1) * 2 := by
              rw [← pow_succ]
              congr 1
              omega
            omega
          have := ih ((n + 2) / 2) (k - 1) (by omega) (by omega) hdiv
          simp only [List.length_cons, List.length_nil]
          omega

theorem binary_to_int_lt (l : List Nat) (h : ∀ b ∈ l, b ≤ 1) :
    binary_to_int l < 2 ^ l.length := by
  induction l with
  | nil => simp [binary_to_int]
  | cons x t ih =>
      rw [binary_to_int_cons]
      have hx : x ≤ 1 := h x (List.mem_cons_self x t)
      have ht := ih (fun b hb => h b (List.mem_cons_of_mem x hb))
      have : 2 ^ (x :: t).length = 2 * 2 ^ t.length := by
        rw [List.length_cons, pow_succ]
        ring
      rw [this]
      nlinarith

theorem binary_to_int_injOn (xs ys : List Nat) (hlen : xs.length = ys.length)
    (hx : ∀ b ∈ xs, b ≤ 1) (hy : ∀ b ∈ ys, b ≤ 1)
    (h : binary_to_int xs = binary_to_int ys) : xs = ys := by
  induction xs generalizing ys with
  | nil =>
      cases ys with
      | nil => rfl
      | cons y t => simp at hlen
  | cons x t ih =>
      cases ys with
      | nil => simp at hlen
      | cons y u =>
          have hlen' : t.length = u.length := by simpa using hlen
          rw [binary_to_int_cons, binary_to_int_cons, hlen'] at h
          have hx1 : x ≤ 1 := hx x (List.mem_cons_self x t)
          have hy1 : y ≤ 1 := hy y (List.mem_cons_self y u)
          have htl : binary_to_int t < 2 ^ u.length := by
            rw [← hlen']
            exact binary_to_int_lt t (fun b hb => hx b (List.mem_cons_of_mem x hb))
          have hul : binary_to_int u < 2 ^ u.length :=
            binary_to_int_lt u (fun b hb => hy b (List.mem_cons_of_mem y hb))
          have hxy : x = y := by nlinarith
          subst hxy
          have : binary_to_int t = binary_to_int u := by omega
          rw [ih u hlen' (fun b hb => hx b (List.mem_cons_of_mem x hb))
            (fun b hb => hy b (List.mem_cons_of_mem x hb)) this]

/-- Fixed-width form: for `v < 2^k` the padded binary string has length
exactly `k`, value `v`, and only bits. -/
theorem int_to_binary_spec (v k : Nat) (hk : 0 < k) (hv : v < 2 ^ k) :
    (int_to_binary v (some k)).length = k ∧
    binary_to_int (int_to_binary v (some k)) = v ∧
    ∀ b ∈ int_to_binary v (some k), b ≤ 1 := by
  have hle : (bitsOf v).length ≤ k := bitsOfAux_length_le v v k le_rfl hk hv
  simp only [int_to_binary]
  by_cases hlt : (bitsOf v).length < k
  · simp only [if_pos hlt]
    refine ⟨?_, ?_, ?_⟩
    · rw [List.length_append, List.length_replicate]
      omega
    · rw [binary_to_int_replicate_zero]
      exact binary_to_int_bitsOf v
    · intro b hb
      rcases List.mem_append.1 hb with h | h
      · have := List.eq_of_mem_replicate h
        omega
      · exact bitsOf_bits v b h
  · simp only [if_neg hlt]
    have hlen : (bitsOf v).length = k := by omega
    exact ⟨hlen, binary_to_int_bitsOf v, bitsOf_bits v⟩

theorem toBytesBE_length (n v : Nat) : (toBytesBE n v).length = n := by
  induction n generalizing v with
  | zero => rfl
  | succ k ih =>
      rw [show toBytesBE (k + 1) v = toBytesBE k (v / 256) ++ [v % 256] from rfl]
      simp [ih]

theorem bytes_to_int_toBytesBE (n v : Nat) (h : v < 256 ^ n) :
    bytes_to_int (toBytesBE n v) = v := by
  induction n generalizing v with
  | zero =>
      simp only [pow_zero, Nat.lt_one_iff] at h
      subst h
      rfl
  | succ k ih =>
      rw [show toBytesBE (k + 1) v = toBytesBE k (v / 256) ++ [v % 256] from rfl]
      rw [bytes_to_int_append]
      have hdiv : v / 256 < 256 ^ k := by
        rw [pow_succ] at h
        omega
      rw [ih _ hdiv]
      have : bytes_to_int [v % 256] = v % 256 := by simp [bytes_to_int]
      rw [this]
      simp only [List.length_cons, List.length_nil, pow_one]
      omega

end SqueueModel

namespace Squeue

open SqueueModel

/-! ## `Squeue` class constants (src/squeue/squeue.py) -/

/-- `Squeue._MESSAGE_SIZE_SIZE`. -/
def MESSAGE_SIZE_SIZE : Nat := 12

/-- `Squeue._MAX_MESSAGE_SIZE`. -/
def MAX_MESSAGE_SIZE : Nat := 2 ^ MESSAGE_SIZE_SIZE

/-- `Squeue._MESSAGE_READ_FLAG_FALSE` (the one-character string `'0'`). -/
def MESSAGE_READ_FLAG_FALSE : List Nat := [0]

/-- `Squeue._MESSAGE_READ_FLAG_TRUE` (the one-character string `'1'`). -/
def MESSAGE_READ_FLAG_TRUE : List Nat := [1]

/-- `Squeue._MESSAGE_READ_FLAG_SIZE`. -/
def MESSAGE_READ_FLAG_SIZE : Nat := 1

/-- `Squeue._CONTROL_BITS_MINIMAL_SIZE`. -/
def CONTROL_BITS_MINIMAL_SIZE : Nat := 2

/-- `Squeue._REQUIRED_METADATA_SIZE`. -/
def REQUIRED_METADATA_SIZE : Nat :=
  MESSAGE_SIZE_SIZE + MESSAGE_READ_FLAG_SIZE + CONTROL_BITS_MINIMAL_SIZE

/-- `Squeue._OPTIONAL_METADATA_SIZE`. -/
def OPTIONAL_METADATA_SIZE : Nat := 8 - REQUIRED_METADATA_SIZE % 8

/-- `Squeue._CONTROL_BITS_SIZE`. -/
def CONTROL_BITS_SIZE : Nat := CONTROL_BITS_MINIMAL_SIZE + OPTIONAL_METADATA_SIZE

/-- `Squeue._CONTROL_BITS`: the rule character `'1'` cycled to
`CONTROL_BITS_SIZE` characters. -/
def CONTROL_BITS : List Nat := List.replicate CONTROL_BITS_SIZE 1

/-- `Squeue._METADATA_SIZE`. -/
def METADATA_SIZE : Nat :=
  (REQUIRED_METADATA_SIZE + OPTIONAL_METADATA_SIZE) / 8

/-! ## The inline header codec of `Squeue` -/

/-- `Squeue._serialize_metadata`: the message length as a *variable-width*
binary string, then the read flag, then the control bits, packed into
`METADATA_SIZE` bytes; `none` models the `OverflowError` of `int.to_bytes`
when the packed value does not fit. -/
def serialize_metadata (message_length : Nat) (message_read : List Nat) :
    Option (List Nat) :=
  int_to_bytes METADATA_SIZE
    (binary_to_int
      (int_to_binary message_length none ++ message_read ++ CONTROL_BITS))

/-- `Squeue._deserialize_metadata`: splits the 16-bit string into the
12-bit length, the flag character and the 3 control bits; `none` models
Python's `return None` on a control-bits mismatch. -/
def deserialize_metadata (data : List Nat) : Option (Nat × List Nat) :=
  let binary := int_to_binary (bytes_to_int data) (some (METADATA_SIZE * 8))
  match split_on_portions binary
      [MESSAGE_SIZE_SIZE, MESSAGE_READ_FLAG_SIZE, CONTROL_BITS_SIZE] with
  | [message_length, message_read, control_bits] =>
      if control_bits ≠ CONTROL_BITS then none
      else some (binary_to_int message_length, message_read)
  | _ => none

/-! ## Codec lemmas -/

theorem control_bits_eq : CONTROL_BITS = [1, 1, 1] := rfl

/-- The packed header value of a length/flag pair. -/
theorem serialize_value (L : Nat) (f : Nat) :
    binary_to_int (int_to_binary L none ++ [f] ++ CONTROL_BITS) =
      16 * L + 8 * f + 7 := by
  rw [control_bits_eq, binary_to_int_append, binary_to_int_append]
  rw [show int_to_binary L none = bitsOf L from rfl, binary_to_int_bitsOf]
  have h1 : binary_to_int [f] = f := by simp [binary_to_int]
  have h2 : binary_to_int [1, 1, 1] = 7 := rfl
  rw [h1, h2]
  simp only [List.length_cons, List.length_nil]
  ring

theorem serialize_metadata_eq (L : Nat) (f : Nat) (hL : L < 4096) (hf : f ≤ 1) :
    serialize_metadata L [f] = some (toBytesBE 2 (16 * L + 8 * f + 7)) := by
  rw [serialize_metadata, serialize_value]
  rw [show METADATA_SIZE = 2 from rfl, int_to_bytes]
  rw [if_pos (by norm_num; omega)]

theorem serialize_metadata_overflow (L : Nat) (f : Nat) (hL : 4096 ≤ L) :
    serialize_metadata L [f] = none := by
  rw [serialize_metadata, serialize_value]
  rw [show METADATA_SIZE = 2 from rfl, int_to_bytes]
  rw [if_neg (by norm_num; omega)]

/-- Decomposition of the 16-bit padded form of a packed header value. -/
theorem int_to_binary_packed (L f : Nat) (hL : L < 4096) (hf : f ≤ 1) :
    int_to_binary (16 * L + 8 * f + 7) (some 16) =
      int_to_binary L (some 12) ++ [f] ++ [1, 1, 1] := by
  have hlhs := int_to_binary_spec (16 * L + 8 * f + 7) 16 (by norm_num)
    (by norm_num; omega)
  have hrhs := int_to_binary_spec L 12 (by norm_num) (by norm_num; omega)
  apply binary_to_int_injOn
  · rw [hlhs.1]
    simp only [List.length_append, hrhs.1, List.length_cons, List.length_nil]
  · exact hlhs.2.2
  · intro b hb
    rcases List.mem_append.1 hb with h | h
    · rcases List.mem_append.1 h with h' | h'
      · exact hrhs.2.2 b h'
      · simp at h'
        omega
    · simp at h
      rcases h with h | h | h <;> omega
  · rw [hlhs.2.1, binary_to_int_append, binary_to_int_append, hrhs.2.1]
    have h1 : binary_to_int [f] = f := by simp [binary_to_int]
    have h2 : binary_to_int [1, 1, 1] = 7 := rfl
    rw [h1, h2]
    simp only [List.length_cons, List.length_nil]
    ring

/-- Round trip of the inline codec actually used by `put`/`get`. -/
theorem deserialize_serialize (L f : Nat) (hL : L < 4096) (hf : f ≤ 1) :
    deserialize_metadata (toBytesBE 2 (16 * L + 8 * f + 7)) = some (L, [f]) := by
  have hv : 16 * L + 8 * f + 7 < 256 ^ 2 := by norm_num; omega
  rw [deserialize_metadata]
  simp only [bytes_to_int_toBytesBE 2 _ hv]
  rw [show METADATA_SIZE * 8 = 16 from rfl]
  rw [int_to_binary_packed L f hL hf]
  have h12 := int_to_binary_spec L 12 (by norm_num) (by norm_num; omega)
  rw [show MESSAGE_SIZE_SIZE = 12 from rfl,
    show MESSAGE_READ_FLAG_SIZE = 1 from rfl,
    show CONTROL_BITS_SIZE = 3 from rfl]
  simp only [split_on_portions]
  have htake12 : ((int_to_binary L (some 12) ++ [f] ++ [1, 1, 1]).take 12) =
      int_to_binary L (some 12) := by
    rw [List.append_assoc]
    exact List.take_left' h12.1
  have hdrop12 : ((int_to_binary L (some 12) ++ [f] ++ [1, 1, 1]).drop 12) =
      [f] ++ [1, 1, 1] := by
    rw [List.append_assoc]
    exact List.drop_left' h12.1
  rw [htake12, hdrop12]
  simp only [List.take_succ_cons, List.take_zero, List.drop_succ_cons,
    List.drop_zero, List.cons_append, List.nil_append]
  rw [if_neg (by rw [control_bits_eq]; simp)]
  rw [h12.2.1]

end Squeue

namespace Squeue

open SqueueModel

/-! ## Queue state and file primitives -/

/-- The observable state of one `Squeue` instance: the backing file's bytes
and the instance's `_read_position` cursor. -/
structure QState where
  file : List Nat
  read_position : Nat
deriving DecidableEq, Repr

/-- `os.read` of `len` bytes at absolute position `pos` (short at EOF). -/
def sread (file : List Nat) (pos len : Nat) : List Nat :=
  (file.drop pos).take len

/-- `os.write` of `data` at absolute position `pos` (overwrites in place,
extending the file when the write runs past the current end). -/
def swrite (file : List Nat) (pos : Nat) (data : List Nat) : List Nat :=
  file.take pos ++ data ++ file.drop (pos + data.length)

/-! ## `put` / `get` / `empty` -/

/-- `Squeue.put`: seek to end-of-file, write the header for the serialized
message with the unread flag, then write the message; `none` models the
`OverflowError` escaping from `_serialize_metadata`. -/
def put (s : QState) (message : List Nat) : Option QState :=
  match serialize_metadata message.length MESSAGE_READ_FLAG_FALSE with
  | none => none
  | some metadata =>
      some ⟨s.file ++ metadata ++ message, s.read_position⟩

/-- One pass of the `while True` loop of `Squeue.get`, with fuel.  Per
iteration: `_is_end_of_file` peeks a header; if absent return the
end-marker; `_message_already_read` deserializes the peeked header (a
`None` result is an unhandled `TypeError`, modelled as the outer `none`);
on an already-read record `_go_to_the_next_message` advances
`read_position` by the bytes actually read plus the message length;
otherwise `_mark_message_as_read` rewrites the header in place with the
read flag and `_read_message` re-reads the header and the payload,
advancing `read_position` past both. -/
def getLoop : Nat → QState → Option (Option (List Nat) × QState)
  | 0, _ => none
  | fuel + 1, s =>
      let md := sread s.file s.read_position METADATA_SIZE
      if md = [] then some (none, s)
      else
        match deserialize_metadata md with
        | none => none
        | some (message_length, message_read) =>
            if message_read = MESSAGE_READ_FLAG_TRUE then
              getLoop fuel
                ⟨s.file, s.read_position + md.length + message_length⟩
            else
              match serialize_metadata message_length MESSAGE_READ_FLAG_TRUE with
              | none => none
              | some new_metadata =>
                  let file' := swrite s.file s.read_position new_metadata
                  let md2 := sread file' s.read_position METADATA_SIZE
                  match deserialize_metadata md2 with
                  | none => none
                  | some (len2, _) =>
                      let msg := sread file' (s.read_position + md2.length) len2
                      some (some msg,
                        ⟨file', s.read_position + md2.length + msg.length⟩)

/-- `Squeue.get`.  The loop advances `read_position` by at least one byte
per iteration while bytes remain, so `file.length + 1` fuel always
suffices. -/
def get (s : QState) : Option (Option (List Nat) × QState) :=
  getLoop (s.file.length + 1) s

/-- One pass of the `while True` loop of `Squeue.empty`, with fuel:
identical to `get`'s loop except that an unread record returns `False`
without mutating anything. -/
def emptyLoop : Nat → QState → Option (Bool × QState)
  | 0, _ => none
  | fuel + 1, s =>
      let md := sread s.file s.read_position METADATA_SIZE
      if md = [] then some (true, s)
      else
        match deserialize_metadata md with
        | none => none
        | some (message_length, message_read) =>
            if message_read = MESSAGE_READ_FLAG_TRUE then
              emptyLoop fuel
                ⟨s.file, s.read_position + md.length + message_length⟩
            else some (false, s)

/-- `Squeue.empty`. -/
def empty (s : QState) : Option (Bool × QState) :=
  emptyLoop (s.file.length + 1) s

end Squeue

namespace Metadata

open SqueueModel

/-! ## The `Metadata` record-header codec (src/squeue/metadata.py) -/

/-- `Metadata.MESSAGE_SIZE_SIZE`. -/
def MESSAGE_SIZE_SIZE : Nat := 15

/-- `Metadata.MAX_MESSAGE_SIZE`. -/
def MAX_MESSAGE_SIZE : Nat := 2 ^ MESSAGE_SIZE_SIZE

/-- `Metadata.MESSAGE_READ_FLAG_FALSE` (the one-character string `'0'`). -/
def MESSAGE_READ_FLAG_FALSE : List Nat := [0]

/-- `Metadata.MESSAGE_READ_FLAG_TRUE` (the one-character string `'1'`). -/
def MESSAGE_READ_FLAG_TRUE : List Nat := [1]

/-- `Metadata.MESSAGE_READ_FLAG_SIZE`. -/
def MESSAGE_READ_FLAG_SIZE : Nat := 1

/-- `Metadata.METADATA_SIZE`. -/
def METADATA_SIZE : Nat := (MESSAGE_SIZE_SIZE + MESSAGE_READ_FLAG_SIZE) / 8

/-- A `Metadata` instance. -/
structure Metadata where
  message_size : Nat
  message_read_flag : List Nat
deriving DecidableEq, Repr

/-- `StringDispenser` (src/squeue/string_dispenser.py). -/
structure StringDispenser where
  data : List Nat
deriving DecidableEq, Repr

/-- `StringDispenser.get`: hands out the next `size` characters. -/
def StringDispenser.get (d : StringDispenser) (size : Nat) :
    List Nat × StringDispenser :=
  (d.data.take size, ⟨d.data.drop size⟩)

/-- `Metadata.serialize`: the read flag character followed by the
15-bit zero-padded size, packed into `METADATA_SIZE` bytes; `none` models
the `OverflowError` of `int.to_bytes`. -/
def serialize (m : Metadata) : Option (List Nat) :=
  let message_size_binary :=
    int_to_binary m.message_size (some MESSAGE_SIZE_SIZE)
  let metadata_bits := m.message_read_flag ++ message_size_binary
  int_to_bytes METADATA_SIZE (binary_to_int metadata_bits)

/-- `Metadata.deserialize`: reads the flag character then the 15 size bits
from the 16-bit form of the input bytes. -/
def deserialize (data : List Nat) : Metadata :=
  let binary_metadata :=
    int_to_binary (bytes_to_int data) (some (METADATA_SIZE * 8))
  let data_dispenser : StringDispenser := ⟨binary_metadata⟩
  let r1 := data_dispenser.get MESSAGE_READ_FLAG_SIZE
  let message_read_flag := r1.1
  let r2 := r1.2.get MESSAGE_SIZE_SIZE
  let message_size_binary := r2.1
  let message_size := binary_to_int message_size_binary
  ⟨message_size, message_read_flag⟩

end Metadata

namespace Squeue

open SqueueModel

/-! ## Encoded files

A well-formed backing file is a concatenation of records, each a 2-byte
header (as written by `_serialize_metadata`) followed by its payload.  A
record is represented as a pair `(flag, payload)` with `flag = 0` unread
and `flag = 1` read. -/

/-- The bytes of one record: header then payload. -/
def encRecord (f : Nat) (m : List Nat) : List Nat :=
  toBytesBE 2 (16 * m.length + 8 * f + 7) ++ m

/-- The bytes of a record list. -/
def encFile (recs : List (Nat × List Nat)) : List Nat :=
  (recs.map fun r => encRecord r.1 r.2).join

/-- Well-formedness: flags are bits and payloads fit the 12-bit size field. -/
def wfRecs (recs : List (Nat × List Nat)) : Prop :=
  ∀ r ∈ recs, r.1 ≤ 1 ∧ r.2.length < 4096

instance (recs : List (Nat × List Nat)) : Decidable (wfRecs recs) := by
  unfold wfRecs
  infer_instance

theorem encRecord_length (f : Nat) (m : List Nat) :
    (encRecord f m).length = 2 + m.length := by
  simp [encRecord, toBytesBE_length]

theorem encFile_nil : encFile [] = [] := rfl

theorem encFile_cons (f : Nat) (m : List Nat) (rest : List (Nat × List Nat)) :
    encFile ((f, m) :: rest) = encRecord f m ++ encFile rest := by
  simp [encFile]

theorem encFile_append (xs ys : List (Nat × List Nat)) :
    encFile (xs ++ ys) = encFile xs ++ encFile ys := by
  simp [encFile]

theorem encFile_length_ge (recs : List (Nat × List Nat)) :
    recs.length ≤ (encFile recs).length := by
  induction recs with
  | nil => simp [encFile_nil]
  | cons r rest ih =>
      rw [show r = (r.1, r.2) from rfl, encFile_cons, List.length_append,
        encRecord_length]
      simp only [List.length_cons]
      omega

theorem sread_append (pfx rest : List Nat) (n : Nat) :
    sread (pfx ++ rest) pfx.length n = rest.take n := by
  simp [sread, List.drop_left]

theorem sread_self (pfx : List Nat) (n : Nat) :
    sread pfx pfx.length n = [] := by
  simp [sread, List.drop_length]

theorem swrite_replace (pfx old new rest : List Nat)
    (h : old.length = new.length) :
    swrite (pfx ++ old ++ rest) pfx.length new = pfx ++ new ++ rest := by
  unfold swrite
  have htake : (pfx ++ old ++ rest).take pfx.length = pfx := by
    rw [List.append_assoc]
    exact List.take_left' rfl
  have hdrop : (pfx ++ old ++ rest).drop (pfx.length + new.length) = rest := by
    apply List.drop_left'
    rw [List.length_append]
    omega
  rw [htake, hdrop]

/-! ## Behaviour of `get` and `empty` on encoded files -/

/-- The result of `get`'s scan starting at the boundary after `pfx`, over
the records `recs`: skip read records, then either consume the first
unread record (flipping its header) or report end-of-file. -/
def getSpec (pfx : List Nat) :
    List (Nat × List Nat) → Option (List Nat) × QState
  | [] => (none, ⟨pfx, pfx.length⟩)
  | (f, m) :: rest =>
      if f = 1 then getSpec (pfx ++ encRecord 1 m) rest
      else (some m,
        ⟨pfx ++ encRecord 1 m ++ encFile rest, pfx.length + 2 + m.length⟩)

/-- The result of `empty`'s scan starting at the boundary after `pfx`. -/
def emptySpec (pfx : List Nat) :
    List (Nat × List Nat) → Bool × QState
  | [] => (true, ⟨pfx, pfx.length⟩)
  | (f, m) :: rest =>
      if f = 1 then emptySpec (pfx ++ encRecord 1 m) rest
      else (false, ⟨pfx ++ encFile ((f, m) :: rest), pfx.length⟩)


theorem getSpec_nil (pfx : List Nat) :
    getSpec pfx [] = (none, ⟨pfx, pfx.length⟩) := rfl

theorem getSpec_cons (pfx : List Nat) (f : Nat) (m : List Nat)
    (rest : List (Nat × List Nat)) :
    getSpec pfx ((f, m) :: rest) =
      if f = 1 then getSpec (pfx ++ encRecord 1 m) rest
      else (some m,
        ⟨pfx ++ encRecord 1 m ++ encFile rest, pfx.length + 2 + m.length⟩) := rfl

theorem emptySpec_nil (pfx : List Nat) :
    emptySpec pfx [] = (true, ⟨pfx, pfx.length⟩) := rfl

theorem emptySpec_cons (pfx : List Nat) (f : Nat) (m : List Nat)
    (rest : List (Nat × List Nat)) :
    emptySpec pfx ((f, m) :: rest) =
      if f = 1 then emptySpec (pfx ++ encRecord 1 m) rest
      else (false, ⟨pfx ++ encFile ((f, m) :: rest), pfx.length⟩) := rfl

theorem getLoop_enc (recs : List (Nat × List Nat)) (hwf : wfRecs recs) :
    ∀ fuel pfx, recs.length < fuel →
    getLoop fuel ⟨pfx ++ encFile recs, pfx.length⟩ = some (getSpec pfx recs) := by
  induction recs with
  | nil =>
      intro fuel pfx hfuel
      match fuel with
      | fuel + 1 =>
          rw [encFile_nil, List.append_nil, getLoop]
          simp only [sread_self, if_true]
          rfl
  | cons r rest ih =>
      intro fuel pfx hfuel
      obtain ⟨f, m⟩ := r
      have hr := hwf (f, m) (List.mem_cons_self _ _)
      have hf : f ≤ 1 := hr.1
      have hL : m.length < 4096 := hr.2
      have hwf' : wfRecs rest := fun r hr => hwf r (List.mem_cons_of_mem _ hr)
      match fuel with
      | fuel + 1 =>
          have hfile : pfx ++ encFile ((f, m) :: rest) =
              pfx ++ (toBytesBE 2 (16 * m.length + 8 * f + 7) ++
                (m ++ encFile rest)) := by
            rw [encFile_cons, encRecord]
            simp [List.append_assoc]
          have hmd : sread (pfx ++ encFile ((f, m) :: rest)) pfx.length
              METADATA_SIZE = toBytesBE 2 (16 * m.length + 8 * f + 7) := by
            rw [hfile, sread_append]
            exact List.take_left' (toBytesBE_length 2 _)
          have hmdlen : (toBytesBE 2 (16 * m.length + 8 * f + 7)).length = 2 :=
            toBytesBE_length 2 _
          have hmdne : toBytesBE 2 (16 * m.length + 8 * f + 7) ≠ [] := by
            intro hcon
            rw [hcon] at hmdlen
            simp at hmdlen
          rw [getLoop]
          simp only [hmd]
          rw [if_neg hmdne, deserialize_serialize m.length f hL hf]
          dsimp only
          by_cases hf1 : f = 1
          · subst hf1
            rw [if_pos (show ([1] : List Nat) = MESSAGE_READ_FLAG_TRUE from rfl)]
            have hstate :
                (⟨pfx ++ encFile ((1, m) :: rest),
                  pfx.length + (toBytesBE 2 (16 * m.length + 8 * 1 + 7)).length +
                    m.length⟩ : QState) =
                ⟨(pfx ++ encRecord 1 m) ++ encFile rest,
                  (pfx ++ encRecord 1 m).length⟩ := by
              rw [encFile_cons, hmdlen]
              simp [encRecord_length, List.append_assoc]
              omega
            rw [hstate, ih hwf' fuel (pfx ++ encRecord 1 m) (by
              simp only [List.length_cons] at hfuel
              omega)]
            rw [getSpec_cons, if_pos rfl]
          · have hf0 : f = 0 := by omega
            subst hf0
            rw [if_neg (show ¬ ([0] : List Nat) = MESSAGE_READ_FLAG_TRUE by
              simp [MESSAGE_READ_FLAG_TRUE])]
            rw [show MESSAGE_READ_FLAG_TRUE = ([1] : List Nat) from rfl]
            rw [serialize_metadata_eq m.length 1 hL (by omega)]
            dsimp only
            have hw : swrite (pfx ++ encFile ((0, m) :: rest)) pfx.length
                (toBytesBE 2 (16 * m.length + 8 * 1 + 7)) =
                pfx ++ (toBytesBE 2 (16 * m.length + 8 * 1 + 7) ++
                  (m ++ encFile rest)) := by
              rw [hfile]
              rw [show pfx ++ (toBytesBE 2 (16 * m.length + 8 * 0 + 7) ++
                  (m ++ encFile rest)) =
                  pfx ++ toBytesBE 2 (16 * m.length + 8 * 0 + 7) ++
                  (m ++ encFile rest) from by simp [List.append_assoc]]
              rw [swrite_replace _ _ _ _ (by rw [toBytesBE_length, toBytesBE_length])]
              simp [List.append_assoc]
            simp only [hw]
            have hmd2 : sread (pfx ++ (toBytesBE 2 (16 * m.length + 8 * 1 + 7) ++
                (m ++ encFile rest))) pfx.length METADATA_SIZE =
                toBytesBE 2 (16 * m.length + 8 * 1 + 7) := by
              rw [sread_append]
              exact List.take_left' (toBytesBE_length 2 _)
            simp only [hmd2]
            rw [deserialize_serialize m.length 1 hL (by omega)]
            dsimp only
            have hmsg : sread (pfx ++ (toBytesBE 2 (16 * m.length + 8 * 1 + 7) ++
                (m ++ encFile rest))) (pfx.length +
                  (toBytesBE 2 (16 * m.length + 8 * 1 + 7)).length)
                m.length = m := by
              rw [show pfx ++ (toBytesBE 2 (16 * m.length + 8 * 1 + 7) ++
                  (m ++ encFile rest)) =
                  (pfx ++ toBytesBE 2 (16 * m.length + 8 * 1 + 7)) ++
                  (m ++ encFile rest) from by simp [List.append_assoc]]
              rw [show pfx.length + (toBytesBE 2 (16 * m.length + 8 * 1 + 7)).length =
                  (pfx ++ toBytesBE 2 (16 * m.length + 8 * 1 + 7)).length from by
                simp]
              rw [sread_append]
              exact List.take_left' rfl
            simp only [hmsg]
            rw [getSpec_cons, if_neg (by omega)]
            simp [encRecord, toBytesBE_length, List.append_assoc]

theorem emptyLoop_enc (recs : List (Nat × List Nat)) (hwf : wfRecs recs) :
    ∀ fuel pfx, recs.length < fuel →
    emptyLoop fuel ⟨pfx ++ encFile recs, pfx.length⟩ =
      some (emptySpec pfx recs) := by
  induction recs with
  | nil =>
      intro fuel pfx hfuel
      match fuel with
      | fuel + 1 =>
          rw [encFile_nil, List.append_nil, emptyLoop]
          simp only [sread_self, if_true]
          rfl
  | cons r rest ih =>
      intro fuel pfx hfuel
      obtain ⟨f, m⟩ := r
      have hr := hwf (f, m) (List.mem_cons_self _ _)
      have hf : f ≤ 1 := hr.1
      have hL : m.length < 4096 := hr.2
      have hwf' : wfRecs rest := fun r hr => hwf r (List.mem_cons_of_mem _ hr)
      match fuel with
      | fuel + 1 =>
          have hfile : pfx ++ encFile ((f, m) :: rest) =
              pfx ++ (toBytesBE 2 (16 * m.length + 8 * f + 7) ++
                (m ++ encFile rest)) := by
            rw [encFile_cons, encRecord]
            simp [List.append_assoc]
          have hmd : sread (pfx ++ encFile ((f, m) :: rest)) pfx.length
              METADATA_SIZE = toBytesBE 2 (16 * m.length + 8 * f + 7) := by
            rw [hfile, sread_append]
            exact List.take_left' (toBytesBE_length 2 _)
          have hmdlen : (toBytesBE 2 (16 * m.length + 8 * f + 7)).length = 2 :=
            toBytesBE_length 2 _
          have hmdne : toBytesBE 2 (16 * m.length + 8 * f + 7) ≠ [] := by
            intro hcon
            rw [hcon] at hmdlen
            simp at hmdlen
          rw [emptyLoop]
          simp only [hmd]
          rw [if_neg hmdne, deserialize_serialize m.length f hL hf]
          dsimp only
          by_cases hf1 : f = 1
          · subst hf1
            rw [if_pos (show ([1] : List Nat) = MESSAGE_READ_FLAG_TRUE from rfl)]
            have hstate :
                (⟨pfx ++ encFile ((1, m) :: rest),
                  pfx.length + (toBytesBE 2 (16 * m.length + 8 * 1 + 7)).length +
                    m.length⟩ : QState) =
                ⟨(pfx ++ encRecord 1 m) ++ encFile rest,
                  (pfx ++ encRecord 1 m).length⟩ := by
              rw [encFile_cons, hmdlen]
              simp [encRecord_length, List.append_assoc]
              omega
            rw [hstate, ih hwf' fuel (pfx ++ encRecord 1 m) (by
              simp only [List.length_cons] at hfuel
              omega)]
            rw [emptySpec_cons, if_pos rfl]
          · have hf0 : f = 0 := by omega
            subst hf0
            rw [if_neg (show ¬ ([0] : List Nat) = MESSAGE_READ_FLAG_TRUE by
              simp [MESSAGE_READ_FLAG_TRUE])]
            rw [emptySpec_cons, if_neg (by omega)]

end Squeue

namespace Squeue

open SqueueModel

/-! ## Top-level operation lemmas on encoded states -/

theorem get_enc (recs : List (Nat × List Nat)) (hwf : wfRecs recs)
    (pfx : List Nat) :
    get ⟨pfx ++ encFile recs, pfx.length⟩ = some (getSpec pfx recs) := by
  rw [get]
  apply getLoop_enc recs hwf
  have := encFile_length_ge recs
  simp only [List.length_append]
  omega

theorem empty_enc (recs : List (Nat × List Nat)) (hwf : wfRecs recs)
    (pfx : List Nat) :
    empty ⟨pfx ++ encFile recs, pfx.length⟩ = some (emptySpec pfx recs) := by
  rw [empty]
  apply emptyLoop_enc recs hwf
  have := encFile_length_ge recs
  simp only [List.length_append]
  omega

theorem get_enc0 (recs : List (Nat × List Nat)) (hwf : wfRecs recs) :
    get ⟨encFile recs, 0⟩ = some (getSpec [] recs) := by
  have h := get_enc recs hwf []
  simpa using h

theorem empty_enc0 (recs : List (Nat × List Nat)) (hwf : wfRecs recs) :
    empty ⟨encFile recs, 0⟩ = some (emptySpec [] recs) := by
  have h := empty_enc recs hwf []
  simpa using h

theorem put_eq (s : QState) (m : List Nat) (h : m.length < 4096) :
    put s m = some ⟨s.file ++ encRecord 0 m, s.read_position⟩ := by
  rw [put, show MESSAGE_READ_FLAG_FALSE = ([0] : List Nat) from rfl,
    serialize_metadata_eq m.length 0 h (by omega)]
  dsimp only
  rw [encRecord]
  simp [List.append_assoc]

theorem put_none (s : QState) (m : List Nat) (h : 4096 ≤ m.length) :
    put s m = none := by
  rw [put, show MESSAGE_READ_FLAG_FALSE = ([0] : List Nat) from rfl,
    serialize_metadata_overflow m.length 0 h]

end Squeue

namespace Metadata

open SqueueModel

/-! ## Lemmas about the `Metadata` codec -/

theorem serialize_eq (size f : Nat) (hs : size < 32768) (hf : f ≤ 1) :
    serialize ⟨size, [f]⟩ = some (toBytesBE 2 (f * 32768 + size)) := by
  have h15 := int_to_binary_spec size 15 (by norm_num) hs
  rw [serialize]
  dsimp only
  rw [show METADATA_SIZE = 2 from rfl, show MESSAGE_SIZE_SIZE = 15 from rfl]
  have hval : binary_to_int ([f] ++ int_to_binary size (some 15)) =
      f * 32768 + size := by
    rw [binary_to_int_append, h15.1, h15.2.1]
    have : binary_to_int [f] = f := by simp [binary_to_int]
    rw [this]
    norm_num
  rw [hval, int_to_bytes, if_pos (by norm_num; omega)]

theorem int_to_binary_flag_size (size f : Nat) (hs : size < 32768)
    (hf : f ≤ 1) :
    int_to_binary (f * 32768 + size) (some 16) =
      [f] ++ int_to_binary size (some 15) := by
  have hlhs := int_to_binary_spec (f * 32768 + size) 16 (by norm_num)
    (by norm_num; omega)
  have hrhs := int_to_binary_spec size 15 (by norm_num) hs
  apply binary_to_int_injOn
  · rw [hlhs.1]
    simp [hrhs.1]
  · exact hlhs.2.2
  · intro b hb
    rcases List.mem_append.1 hb with h | h
    · simp at h
      omega
    · exact hrhs.2.2 b h
  · rw [hlhs.2.1, binary_to_int_append, hrhs.1, hrhs.2.1]
    have : binary_to_int [f] = f := by simp [binary_to_int]
    rw [this]
    norm_num

theorem deserialize_eq (size f : Nat) (hs : size < 32768) (hf : f ≤ 1) :
    deserialize (toBytesBE 2 (f * 32768 + size)) = ⟨size, [f]⟩ := by
  have hv : f * 32768 + size < 256 ^ 2 := by norm_num; omega
  have h15 := int_to_binary_spec size 15 (by norm_num) hs
  rw [deserialize]
  dsimp only [StringDispenser.get]
  rw [show METADATA_SIZE * 8 = 16 from rfl,
    bytes_to_int_toBytesBE 2 _ hv,
    int_to_binary_flag_size size f hs hf,
    show MESSAGE_READ_FLAG_SIZE = 1 from rfl,
    show MESSAGE_SIZE_SIZE = 15 from rfl]
  have htake : ([f] ++ int_to_binary size (some 15)).take 1 = [f] := by
    exact List.take_left' rfl
  have hdrop : ([f] ++ int_to_binary size (some 15)).drop 1 =
      int_to_binary size (some 15) := by
    exact List.drop_left' rfl
  rw [htake, hdrop]
  rw [List.take_of_length_le (le_of_eq h15.1), h15.2.1]

end Metadata

namespace Squeue

open SqueueModel

/-! ## Claim theorems: codec and `put` -/

/-- **C10**: the inline header codec actually used by `put`/`get` round-trips
on its own format: for every `message_length` below `2 ^ 12` and both flag
characters `'0'` and `'1'`, `_deserialize_metadata` of `_serialize_metadata`
returns exactly the length and flag again. -/
theorem claim_inline_codec_roundtrip (L : Nat) (flag : List Nat)
    (hL : L < 2 ^ 12)
    (hf : flag = MESSAGE_READ_FLAG_FALSE ∨ flag = MESSAGE_READ_FLAG_TRUE) :
    ∃ bs, serialize_metadata L flag = some bs ∧
      deserialize_metadata bs = some (L, flag) := by
  have hL' : L < 4096 := by norm_num at hL; omega
  rcases hf with h | h
  · subst h
    rw [show MESSAGE_READ_FLAG_FALSE = ([0] : List Nat) from rfl]
    exact ⟨_, serialize_metadata_eq L 0 hL' (by omega),
      deserialize_serialize L 0 hL' (by omega)⟩
  · subst h
    rw [show MESSAGE_READ_FLAG_TRUE = ([1] : List Nat) from rfl]
    exact ⟨_, serialize_metadata_eq L 1 hL' (by omega),
      deserialize_serialize L 1 hL' (by omega)⟩

/-- Witness for C10 at `message_length = 2709`, flag `'0'`. -/
theorem claim_inline_codec_roundtrip_witness :
    ∃ bs, serialize_metadata 2709 MESSAGE_READ_FLAG_FALSE = some bs ∧
      deserialize_metadata bs = some (2709, MESSAGE_READ_FLAG_FALSE) :=
  claim_inline_codec_roundtrip 2709 MESSAGE_READ_FLAG_FALSE (by norm_num)
    (Or.inl rfl)

/-- **C3** counterexample: the header `put` writes for the 3-byte message
`b"abc"` is `[0x00, 0x37]` (size bits first, then the flag, then three
control bits `1`), which differs from the claimed 1+15-bit packing of
`(unread, 3)`, namely `[0x00, 0x03]` as produced by `Metadata.serialize`. -/
theorem claim_put_header_msb_counterexample :
    put ⟨[], 0⟩ [97, 98, 99] = some ⟨[0, 55, 97, 98, 99], 0⟩ ∧
    Metadata.serialize ⟨3, Metadata.MESSAGE_READ_FLAG_FALSE⟩ = some [0, 3] ∧
    (([0, 55] : List Nat) ≠ [0, 3]) := by
  refine ⟨by decide, by decide, by decide⟩

/-- **C3** (amended): for every record written by `put`, the 2-byte header
packs the message size bits first (variable width), then the unread flag
bit `0`, then three control bits `1`; its 16-bit big-endian value is
`16 * L + 7` for a message of length `L`.  The flag is not the most
significant bit and the control padding is present. -/
theorem claim_put_header_format_amended (s : QState) (m : List Nat)
    (h : m.length < 4096) :
    put s m =
      some ⟨s.file ++ (toBytesBE 2 (16 * m.length + 7) ++ m),
        s.read_position⟩ := by
  rw [put_eq s m h, encRecord]

/-- Witness for the amended C3 at the 3-byte message `b"abc"`. -/
theorem claim_put_header_format_amended_witness :
    put ⟨[], 0⟩ [97, 98, 99] =
      some ⟨[] ++ (toBytesBE 2 (16 * [97, 98, 99].length + 7) ++ [97, 98, 99]),
        (0 : Nat)⟩ :=
  claim_put_header_format_amended ⟨[], 0⟩ [97, 98, 99] (by decide)

/-- **C4** counterexample: a message of length `2 ^ 12 = 4096` is well below
the claimed `2 ^ 15` bound, yet `put` fails on it (the 17-bit packed header
does not fit `int.to_bytes(2, ...)`, a Python `OverflowError`, not an
`ExcedeedMessageSizeError`). -/
theorem claim_put_size_limit_counterexample :
    (List.replicate 4096 97).length < 2 ^ 15 ∧
    put ⟨[], 0⟩ (List.replicate 4096 97) = none := by
  constructor
  · rw [List.length_replicate]
    norm_num
  · exact put_none _ _ (by rw [List.length_replicate])

/-- **C4** (amended): `put` fails exactly when the encoded payload length
is at least `2 ^ 12` (with an `OverflowError` from the 2-byte header
conversion — the code never raises `ExcedeedMessageSizeError`); for every
shorter message `put` succeeds and appends the record at end-of-file. -/
theorem claim_put_size_limit_amended (s : QState) (m : List Nat) :
    (put s m = none ↔ 2 ^ 12 ≤ m.length) ∧
    (m.length < 2 ^ 12 →
      put s m = some ⟨s.file ++ encRecord 0 m, s.read_position⟩) := by
  constructor
  · constructor
    · intro hnone
      by_contra hlt
      rw [put_eq s m (by norm_num at hlt ⊢; omega)] at hnone
      exact Option.noConfusion hnone
    · intro hge
      exact put_none s m (by norm_num at hge; omega)
  · intro hlt
    exact put_eq s m (by norm_num at hlt; omega)

/-- Witness for the amended C4: on a length-4096 message `put` fails; on
`b"abc"` it succeeds and appends the record. -/
theorem claim_put_size_limit_amended_witness :
    ((put ⟨[], 0⟩ (List.replicate 4096 97) = none ↔
        2 ^ 12 ≤ (List.replicate 4096 97).length) ∧
      ((List.replicate 4096 97).length < 2 ^ 12 →
        put ⟨[], 0⟩ (List.replicate 4096 97) =
          some ⟨[] ++ encRecord 0 (List.replicate 4096 97), 0⟩)) ∧
    ([97, 98, 99].length < 2 ^ 12 →
      put ⟨[], 0⟩ [97, 98, 99] = some ⟨[] ++ encRecord 0 [97, 98, 99], 0⟩) :=
  ⟨claim_put_size_limit_amended ⟨[], 0⟩ (List.replicate 4096 97),
    (claim_put_size_limit_amended ⟨[], 0⟩ [97, 98, 99]).2⟩

/-- **C1**: FIFO within one instance: on a freshly constructed queue (empty
backing file, cursor `0`), after `put a; put b` — both messages small
enough for the 12-bit size field, so that the two `put` calls complete —
the first `get` returns `a`, the second returns `b`, and the third returns
the end-marker `none`. -/
theorem claim_fifo_two_messages (a b : List Nat)
    (ha : a.length < 4096) (hb : b.length < 4096) :
    ∃ s1 s2 s3 s4 s5,
      put ⟨[], 0⟩ a = some s1 ∧
      put s1 b = some s2 ∧
      get s2 = some (some a, s3) ∧
      get s3 = some (some b, s4) ∧
      get s4 = some (none, s5) := by
  have hwf2 : wfRecs [(0, a), (0, b)] := by
    intro r hr
    simp only [List.mem_cons, List.not_mem_nil, or_false] at hr
    rcases hr with rfl | rfl
    · exact ⟨by omega, ha⟩
    · exact ⟨by omega, hb⟩
  have hwfb : wfRecs [(0, b)] := by
    intro r hr
    simp only [List.mem_cons, List.not_mem_nil, or_false] at hr
    rcases hr with rfl
    exact ⟨by omega, hb⟩
  refine ⟨⟨encFile [(0, a)], 0⟩, ⟨encFile [(0, a), (0, b)], 0⟩,
    ⟨encFile [(1, a), (0, b)], (encFile [(1, a)]).length⟩,
    ⟨encFile [(1, a), (1, b)], (encFile [(1, a), (1, b)]).length⟩,
    ⟨encFile [(1, a), (1, b)], (encFile [(1, a), (1, b)]).length⟩,
    ?_, ?_, ?_, ?_, ?_⟩
  · rw [put_eq _ _ ha]
    simp [encFile_cons, encFile_nil]
  · rw [put_eq _ _ hb]
    simp [encFile_cons, encFile_nil, List.append_assoc]
  · rw [get_enc0 [(0, a), (0, b)] hwf2, getSpec_cons, if_neg (by omega)]
    simp [encFile_cons, encFile_nil, encRecord_length, List.append_assoc]
  · have hsplit : encFile [(1, a), (0, b)] =
        encFile [(1, a)] ++ encFile [(0, b)] :=
      encFile_append [(1, a)] [(0, b)]
    rw [show (⟨encFile [(1, a), (0, b)], (encFile [(1, a)]).length⟩ : QState) =
        ⟨encFile [(1, a)] ++ encFile [(0, b)], (encFile [(1, a)]).length⟩ from by
      rw [hsplit]]
    rw [get_enc [(0, b)] hwfb (encFile [(1, a)]), getSpec_cons,
      if_neg (by omega)]
    simp [encFile_cons, encFile_nil, encRecord_length, List.append_assoc]
    omega
  · have h := get_enc [] (by intro r hr; simp at hr)
      (encFile [(1, a), (1, b)])
    rw [encFile_nil, List.append_nil] at h
    rw [h, getSpec_nil]

/-- Witness for C1 at `a = b"foo"`, `b = b"bar"`. -/
theorem claim_fifo_two_messages_witness :
    ∃ s1 s2 s3 s4 s5,
      put ⟨[], 0⟩ [102, 111, 111] = some s1 ∧
      put s1 [98, 97, 114] = some s2 ∧
      get s2 = some (some [102, 111, 111], s3) ∧
      get s3 = some (some [98, 97, 114], s4) ∧
      get s4 = some (none, s5) :=
  claim_fifo_two_messages [102, 111, 111] [98, 97, 114] (by decide) (by decide)

end Squeue

namespace Metadata

open SqueueModel

/-- **C2**: round trip of the `Metadata` record-header codec: for every
`size` in `[0, 2 ^ 15 - 1]` and both flag values, deserializing the
serialization of `(size, flag)` yields exactly `(size, flag)` back. -/
theorem claim_header_roundtrip (size : Nat) (flag : List Nat)
    (hs : size < 2 ^ 15)
    (hf : flag = MESSAGE_READ_FLAG_FALSE ∨ flag = MESSAGE_READ_FLAG_TRUE) :
    ∃ bs, serialize ⟨size, flag⟩ = some bs ∧
      deserialize bs = ⟨size, flag⟩ := by
  have hs' : size < 32768 := by norm_num at hs; omega
  rcases hf with h | h
  · subst h
    rw [show MESSAGE_READ_FLAG_FALSE = ([0] : List Nat) from rfl]
    exact ⟨_, serialize_eq size 0 hs' (by omega),
      deserialize_eq size 0 hs' (by omega)⟩
  · subst h
    rw [show MESSAGE_READ_FLAG_TRUE = ([1] : List Nat) from rfl]
    exact ⟨_, serialize_eq size 1 hs' (by omega),
      deserialize_eq size 1 hs' (by omega)⟩

/-- Witness for C2 at `size = 31415`, flag `'1'`. -/
theorem claim_header_roundtrip_witness :
    ∃ bs, serialize ⟨31415, MESSAGE_READ_FLAG_TRUE⟩ = some bs ∧
      deserialize bs = ⟨31415, MESSAGE_READ_FLAG_TRUE⟩ :=
  claim_header_roundtrip 31415 MESSAGE_READ_FLAG_TRUE (by norm_num)
    (Or.inr rfl)

end Metadata

namespace Squeue

open SqueueModel

/-! ## Spec-modelled parts: token lifecycle and compaction

`NoTokenFoundError` is declared in src/squeue/exceptions.py and the tests in
src/tests/test_squeue.py call `Squeue.clean` and use the
`autoclean`/`critical_size` attributes, but the corresponding code (token
handling in the constructor, `clean`) is not present under src/.  These
parts are modelled from the spec. -/

/-- Modelled from the spec: the token is "4 bytes random" at the head of
the backing file (spec §3). -/
def TOKEN_SIZE : Nat := 4

/-- Outcome of queue construction in the token-aware model. -/
inductive InitResult where
  | ok (file : List Nat) (cached_token : List Nat) (read_position : Nat)
  | noTokenFound
deriving DecidableEq, Repr

/-- Modelled from the spec: the token-aware construction (`open(path)`,
spec §4.2 and §3 Lifecycle) is missing from src/ — `Squeue.__init__` in
src/squeue/squeue.py has no token handling and `NoTokenFoundError` is
declared but never raised.  `fresh_token` stands for the freshly generated
random token used when the file is empty.  Steps: open/create; if the file
size is 0, generate a new token and write it at offset 0; else read
`TOKEN_SIZE` bytes at offset 0 and fail with `NoTokenFoundError` if fewer
are available; cache the token and set the cursor to the start of the data
region (just after the token). -/
def initQueue (file : List Nat) (fresh_token : List Nat) : InitResult :=
  if file.length = 0 then .ok fresh_token fresh_token TOKEN_SIZE
  else if file.length < TOKEN_SIZE then .noTokenFound
  else .ok file (file.take TOKEN_SIZE) TOKEN_SIZE

/-- Modelled from the spec: the scan of `clean()` (spec §4.3 step 1): walk
the records from the start of the data region using the header codec of
src/squeue/squeue.py, skipping records whose flag is read, and return the
offset of the first unread record or of end-of-file.  Fuel as in the other
loops. -/
def cleanScanLoop : Nat → List Nat → Nat → Option Nat
  | 0, _, _ => none
  | fuel + 1, file, pos =>
      if sread file pos METADATA_SIZE = [] then some pos
      else
        match deserialize_metadata (sread file pos METADATA_SIZE) with
        | none => none
        | some (message_length, message_read) =>
            if message_read = MESSAGE_READ_FLAG_TRUE then
              cleanScanLoop fuel file
                (pos + (sread file pos METADATA_SIZE).length + message_length)
            else some pos

/-- Modelled from the spec: `Squeue.clean` (spec §4.3) is missing from src/
(the tests call it).  Find the offset `P` of the first unread record; if
`P` is the start of the data region, return without modifying anything;
otherwise move every byte from `P` to end-of-file down to the start of the
data region, truncate to the bytes copied, and reset this instance's
`read_position` to the start of the data region.  The src revision has no
token region, so the data region starts at offset 0 and the token renewal
of steps 5–6 has no counterpart. -/
def clean (s : QState) : Option QState :=
  match cleanScanLoop (s.file.length + 1) s.file 0 with
  | none => none
  | some P =>
      if P = 0 then some s
      else some ⟨s.file.drop P, 0⟩

/-- The offset returned by `clean`'s scan over an encoded file. -/
def cleanScanSpec (pfx : List Nat) : List (Nat × List Nat) → Nat
  | [] => pfx.length
  | (f, m) :: rest =>
      if f = 1 then cleanScanSpec (pfx ++ encRecord 1 m) rest
      else pfx.length

theorem cleanScanSpec_nil (pfx : List Nat) :
    cleanScanSpec pfx [] = pfx.length := rfl

theorem cleanScanSpec_cons (pfx : List Nat) (f : Nat) (m : List Nat)
    (rest : List (Nat × List Nat)) :
    cleanScanSpec pfx ((f, m) :: rest) =
      if f = 1 then cleanScanSpec (pfx ++ encRecord 1 m) rest
      else pfx.length := rfl

theorem cleanScanLoop_enc (recs : List (Nat × List Nat)) (hwf : wfRecs recs) :
    ∀ fuel pfx, recs.length < fuel →
    cleanScanLoop fuel (pfx ++ encFile recs) pfx.length =
      some (cleanScanSpec pfx recs) := by
  induction recs with
  | nil =>
      intro fuel pfx hfuel
      match fuel with
      | fuel + 1 =>
          rw [encFile_nil, List.append_nil, cleanScanLoop]
          simp only [sread_self, if_true]
          rfl
  | cons r rest ih =>
      intro fuel pfx hfuel
      obtain ⟨f, m⟩ := r
      have hr := hwf (f, m) (List.mem_cons_self _ _)
      have hf : f ≤ 1 := hr.1
      have hL : m.length < 4096 := hr.2
      have hwf' : wfRecs rest := fun r hr => hwf r (List.mem_cons_of_mem _ hr)
      match fuel with
      | fuel + 1 =>
          have hfile : pfx ++ encFile ((f, m) :: rest) =
              pfx ++ (toBytesBE 2 (16 * m.length + 8 * f + 7) ++
                (m ++ encFile rest)) := by
            rw [encFile_cons, encRecord]
            simp [List.append_assoc]
          have hmd : sread (pfx ++ encFile ((f, m) :: rest)) pfx.length
              METADATA_SIZE = toBytesBE 2 (16 * m.length + 8 * f + 7) := by
            rw [hfile, sread_append]
            exact List.take_left' (toBytesBE_length 2 _)
          have hmdlen : (toBytesBE 2 (16 * m.length + 8 * f + 7)).length = 2 :=
            toBytesBE_length 2 _
          have hmdne : toBytesBE 2 (16 * m.length + 8 * f + 7) ≠ [] := by
            intro hcon
            rw [hcon] at hmdlen
            simp at hmdlen
          rw [cleanScanLoop]
          simp only [hmd]
          rw [if_neg hmdne, deserialize_serialize m.length f hL hf]
          dsimp only
          by_cases hf1 : f = 1
          · subst hf1
            rw [if_pos (show ([1] : List Nat) = MESSAGE_READ_FLAG_TRUE from rfl)]
            have hpos : pfx.length + (toBytesBE 2 (16 * m.length + 8 * 1 + 7)).length +
                m.length = (pfx ++ encRecord 1 m).length := by
              rw [hmdlen]
              simp [encRecord_length]
              omega
            have hfile2 : pfx ++ encFile ((1, m) :: rest) =
                (pfx ++ encRecord 1 m) ++ encFile rest := by
              rw [encFile_cons]
              simp [List.append_assoc]
            rw [hpos, hfile2, ih hwf' fuel (pfx ++ encRecord 1 m) (by
              simp only [List.length_cons] at hfuel
              omega)]
            rw [cleanScanSpec_cons, if_pos rfl]
          · have hf0 : f = 0 := by omega
            subst hf0
            rw [if_neg (show ¬ ([0] : List Nat) = MESSAGE_READ_FLAG_TRUE by
              simp [MESSAGE_READ_FLAG_TRUE])]
            rw [cleanScanSpec_cons, if_neg (by omega)]

/-- **C5**: spec-modelled queue construction: on an empty file the fresh
token is written at offset 0 (the file becomes exactly the token) and
cached; on a non-empty file shorter than the token size construction fails
with `NoTokenFoundError`; on a file at least token-sized it succeeds,
leaves the file unchanged and caches the existing token; in both success
cases the cursor starts at the data region (offset `TOKEN_SIZE`). -/
theorem claim_token_lifecycle (file fresh_token : List Nat)
    (hfresh : fresh_token.length = TOKEN_SIZE) :
    (file = [] →
      initQueue file fresh_token = .ok fresh_token fresh_token TOKEN_SIZE) ∧
    (0 < file.length → file.length < TOKEN_SIZE →
      initQueue file fresh_token = .noTokenFound) ∧
    (TOKEN_SIZE ≤ file.length →
      initQueue file fresh_token =
        .ok file (file.take TOKEN_SIZE) TOKEN_SIZE) := by
  refine ⟨?_, ?_, ?_⟩
  · intro h
    subst h
    rfl
  · intro h1 h2
    rw [initQueue, if_neg (by omega), if_pos h2]
  · intro h
    rw [initQueue, if_neg (by rw [show TOKEN_SIZE = 4 from rfl] at h; omega),
      if_neg (by omega)]

/-- Witness for C5 with a 1-byte (corrupt) file and a 4-byte token. -/
theorem claim_token_lifecycle_witness :
    (([7] : List Nat) = [] →
      initQueue [7] [9, 9, 9, 9] = .ok [9, 9, 9, 9] [9, 9, 9, 9] TOKEN_SIZE) ∧
    (0 < ([7] : List Nat).length → ([7] : List Nat).length < TOKEN_SIZE →
      initQueue [7] [9, 9, 9, 9] = .noTokenFound) ∧
    (TOKEN_SIZE ≤ ([7] : List Nat).length →
      initQueue [7] [9, 9, 9, 9] =
        .ok [7] ([7].take TOKEN_SIZE) TOKEN_SIZE) :=
  claim_token_lifecycle [7] [9, 9, 9, 9] (by decide)

/-- **C6**: spec-modelled compaction shrinks the file and preserves unread
data: from a fresh queue, after `put a; put b; get` (which consumes `a`),
`clean()` strictly decreases the file size, the next `get` returns `b` and
the one after returns the end-marker `none`. -/
theorem claim_clean_shrinks_preserves (a b : List Nat)
    (ha : a.length < 4096) (hb : b.length < 4096) :
    ∃ s1 s2 s3 s4 s5 s6,
      put ⟨[], 0⟩ a = some s1 ∧
      put s1 b = some s2 ∧
      get s2 = some (some a, s3) ∧
      clean s3 = some s4 ∧
      s4.file.length < s3.file.length ∧
      get s4 = some (some b, s5) ∧
      get s5 = some (none, s6) := by
  have hwf2 : wfRecs [(0, a), (0, b)] := by
    intro r hr
    simp only [List.mem_cons, List.not_mem_nil, or_false] at hr
    rcases hr with rfl | rfl
    · exact ⟨by omega, ha⟩
    · exact ⟨by omega, hb⟩
  have hwfab : wfRecs [(1, a), (0, b)] := by
    intro r hr
    simp only [List.mem_cons, List.not_mem_nil, or_false] at hr
    rcases hr with rfl | rfl
    · exact ⟨by omega, ha⟩
    · exact ⟨by omega, hb⟩
  have hwfb : wfRecs [(0, b)] := by
    intro r hr
    simp only [List.mem_cons, List.not_mem_nil, or_false] at hr
    rcases hr with rfl
    exact ⟨by omega, hb⟩
  refine ⟨⟨encFile [(0, a)], 0⟩, ⟨encFile [(0, a), (0, b)], 0⟩,
    ⟨encFile [(1, a), (0, b)], (encFile [(1, a)]).length⟩,
    ⟨encFile [(0, b)], 0⟩,
    ⟨encFile [(1, b)], (encFile [(1, b)]).length⟩,
    ⟨encFile [(1, b)], (encFile [(1, b)]).length⟩,
    ?_, ?_, ?_, ?_, ?_, ?_, ?_⟩
  · rw [put_eq _ _ ha]
    simp [encFile_cons, encFile_nil]
  · rw [put_eq _ _ hb]
    simp [encFile_cons, encFile_nil, List.append_assoc]
  · rw [get_enc0 [(0, a), (0, b)] hwf2, getSpec_cons, if_neg (by omega)]
    simp [encFile_cons, encFile_nil, encRecord_length, List.append_assoc]
  · rw [clean]
    have hscan := cleanScanLoop_enc [(1, a), (0, b)] hwfab
      ((encFile [(1, a), (0, b)]).length + 1) [] (by
        have h := encFile_length_ge [(1, a), (0, b)]
        simp only [List.length_cons, List.length_nil] at h ⊢
        omega)
    simp only [List.nil_append, List.length_nil] at hscan
    rw [hscan]
    rw [cleanScanSpec_cons, if_pos rfl, cleanScanSpec_cons, if_neg (by omega)]
    dsimp only
    have hlen : ([] ++ encRecord 1 a).length = 2 + a.length := by
      simp [encRecord_length]
    rw [if_neg (by rw [hlen]; omega)]
    have hdrop : (encFile [(1, a), (0, b)]).drop (([] ++ encRecord 1 a).length) =
        encFile [(0, b)] := by
      rw [encFile_cons]
      simp only [List.nil_append]
      exact List.drop_left' rfl
    rw [hdrop]
  · simp [encFile_cons, encFile_nil, encRecord_length]
  · rw [get_enc0 [(0, b)] hwfb, getSpec_cons, if_neg (by omega)]
    simp [encFile_cons, encFile_nil, encRecord_length, List.append_assoc]
  · have h := get_enc [] (by intro r hr; simp at hr) (encFile [(1, b)])
    rw [encFile_nil, List.append_nil] at h
    rw [h, getSpec_nil]

/-- Witness for C6 at `a = b"foo"`, `b = b"bar"`. -/
theorem claim_clean_shrinks_preserves_witness :
    ∃ s1 s2 s3 s4 s5 s6,
      put ⟨[], 0⟩ [102, 111, 111] = some s1 ∧
      put s1 [98, 97, 114] = some s2 ∧
      get s2 = some (some [102, 111, 111], s3) ∧
      clean s3 = some s4 ∧
      s4.file.length < s3.file.length ∧
      get s4 = some (some [98, 97, 114], s5) ∧
      get s5 = some (none, s6) :=
  claim_clean_shrinks_preserves [102, 111, 111] [98, 97, 114]
    (by decide) (by decide)

end Squeue

namespace Squeue

open SqueueModel

/-! ## Properties of `empty` -/

theorem emptySpec_props (recs : List (Nat × List Nat)) (hwf : wfRecs recs) :
    ∀ pfx : List Nat, ∃ j, j ≤ recs.length ∧
      (∀ r ∈ recs.take j, r.1 = 1) ∧
      emptySpec pfx recs =
        (decide (∀ r ∈ recs, r.1 = 1),
          ⟨pfx ++ encFile recs, pfx.length + (encFile (recs.take j)).length⟩) := by
  induction recs with
  | nil =>
      intro pfx
      refine ⟨0, by simp, by simp, ?_⟩
      rw [emptySpec_nil]
      simp [encFile_nil]
  | cons r rest ih =>
      intro pfx
      obtain ⟨f, m⟩ := r
      have hwf' : wfRecs rest := fun r hr => hwf r (List.mem_cons_of_mem _ hr)
      by_cases hf1 : f = 1
      · subst hf1
        obtain ⟨j, hj, hread, heq⟩ := ih hwf' (pfx ++ encRecord 1 m)
        refine ⟨j + 1, by simp; omega, ?_, ?_⟩
        · intro r hr
          rw [List.take_succ_cons] at hr
          rcases List.mem_cons.1 hr with rfl | hmem
          · rfl
          · exact hread r hmem
        · rw [emptySpec_cons, if_pos rfl, heq]
          refine Prod.ext ?_ ?_
          · simp only
            apply decide_eq_decide.mpr
            constructor
            · intro hall r hr
              rcases List.mem_cons.1 hr with rfl | hmem
              · rfl
              · exact hall r hmem
            · intro hall r hr
              exact hall r (List.mem_cons_of_mem _ hr)
          · simp only
            rw [QState.mk.injEq]
            constructor
            · rw [encFile_cons]
              simp [List.append_assoc]
            · rw [List.take_succ_cons, encFile_cons, List.length_append,
                List.length_append, encRecord_length]
              omega
      · have hf0 : (f, m).1 ≤ 1 := (hwf (f, m) (List.mem_cons_self _ _)).1
        have hf0' : f = 0 := by simp at hf0; omega
        subst hf0'
        refine ⟨0, by simp, by simp, ?_⟩
        rw [emptySpec_cons, if_neg (by omega)]
        refine Prod.ext ?_ ?_
        · simp only
          symm
          apply decide_eq_false
          intro hall
          have := hall (0, m) (List.mem_cons_self _ _)
          simp at this
        · simp [encFile_nil]

/-- **C7** counterexample: on the queue state whose backing file holds one
already-read record (payload `b"a"`, header `[0, 31]`) with the cursor at
`0` — the state a second instance sees after another instance consumed the
record — `empty()` returns `true` but moves the instance's persisted
`read_position` from `0` to `3`, so the scan does not run on a local copy
only. -/
theorem claim_empty_pure_observer_counterexample :
    empty ⟨[0, 31, 97], 0⟩ = some (true, ⟨[0, 31, 97], 3⟩) ∧
    ((3 : Nat) ≠ 0) := ⟨by decide, by decide⟩

/-- **C7** (amended): `empty()` never writes the file (so it never flips a
record's consumed flag), and it returns `true` iff the scan reaches
end-of-file without finding an unread record; however it does advance the
instance's persisted `read_position` — only ever past already-read
records, never past an unread one.  Stated over every well-formed queue
state (a file of encoded records with the cursor on a record boundary). -/
theorem claim_empty_observer_amended (recs : List (Nat × List Nat)) (k : Nat)
    (hwf : wfRecs recs) (hk : k ≤ recs.length) :
    ∃ r s',
      empty ⟨encFile recs, (encFile (recs.take k)).length⟩ = some (r, s') ∧
      s'.file = encFile recs ∧
      (r = true ↔ ∀ rec ∈ recs.drop k, rec.1 = 1) ∧
      ∃ j, k + j ≤ recs.length ∧
        (∀ rec ∈ (recs.drop k).take j, rec.1 = 1) ∧
        s'.read_position = (encFile (recs.take (k + j))).length := by
  have hwfd : wfRecs (recs.drop k) := fun r hr =>
    hwf r (List.mem_of_mem_drop hr)
  obtain ⟨j, hj, hread, heq⟩ := emptySpec_props (recs.drop k) hwfd
    (encFile (recs.take k))
  have hsplit : encFile recs =
      encFile (recs.take k) ++ encFile (recs.drop k) := by
    rw [← encFile_append, List.take_append_drop]
  have hempty : empty ⟨encFile recs, (encFile (recs.take k)).length⟩ =
      some (emptySpec (encFile (recs.take k)) (recs.drop k)) := by
    rw [show (⟨encFile recs, (encFile (recs.take k)).length⟩ : QState) =
        ⟨encFile (recs.take k) ++ encFile (recs.drop k),
          (encFile (recs.take k)).length⟩ from by rw [← hsplit]]
    exact empty_enc (recs.drop k) hwfd (encFile (recs.take k))
  refine ⟨decide (∀ r ∈ recs.drop k, r.1 = 1),
    ⟨encFile (recs.take k) ++ encFile (recs.drop k),
      (encFile (recs.take k)).length +
        (encFile ((recs.drop k).take j)).length⟩, ?_, ?_, ?_, ?_⟩
  · rw [hempty, heq]
  · exact hsplit.symm
  · simp
  · refine ⟨j, by simp at hj; omega, hread, ?_⟩
    simp only
    rw [List.take_add, encFile_append, List.length_append]

/-- Witness for the amended C7 on a file with one read and one unread
record and the cursor at the start. -/
theorem claim_empty_observer_amended_witness :
    ∃ r s',
      empty ⟨encFile [(1, [97]), (0, [98])],
        (encFile ([(1, [97]), (0, [98])].take 0)).length⟩ = some (r, s') ∧
      s'.file = encFile [(1, [97]), (0, [98])] ∧
      (r = true ↔ ∀ rec ∈ [(1, [97]), (0, [98])].drop 0, rec.1 = 1) ∧
      ∃ j, 0 + j ≤ [(1, [97]), (0, [98])].length ∧
        (∀ rec ∈ ([(1, [97]), (0, [98])].drop 0).take j, rec.1 = 1) ∧
        s'.read_position =
          (encFile ([(1, [97]), (0, [98])].take (0 + j))).length :=
  claim_empty_observer_amended [(1, [97]), (0, [98])] 0 (by decide) (by decide)

end Squeue

namespace Squeue

open SqueueModel

/-! ## Observational properties: `empty` versus `get` -/

theorem emptySpec_getSpec (recs : List (Nat × List Nat)) (hwf : wfRecs recs) :
    ∀ pfx : List Nat,
      get (emptySpec pfx recs).2 = get ⟨pfx ++ encFile recs, pfx.length⟩ := by
  induction recs with
  | nil =>
      intro pfx
      rw [emptySpec_nil]
      simp [encFile_nil]
  | cons r rest ih =>
      intro pfx
      obtain ⟨f, m⟩ := r
      have hwf' : wfRecs rest := fun r hr => hwf r (List.mem_cons_of_mem _ hr)
      by_cases hf1 : f = 1
      · subst hf1
        rw [emptySpec_cons, if_pos rfl, ih hwf' (pfx ++ encRecord 1 m)]
        rw [get_enc rest hwf' (pfx ++ encRecord 1 m)]
        have hfile : (⟨pfx ++ encFile ((1, m) :: rest), pfx.length⟩ : QState) =
            ⟨pfx ++ encRecord 1 m ++ encFile rest, pfx.length⟩ := by
          rw [encFile_cons, List.append_assoc]
        rw [hfile]
        have h2 := get_enc ((1, m) :: rest) hwf pfx
        rw [show pfx ++ encFile ((1, m) :: rest) =
            pfx ++ encRecord 1 m ++ encFile rest from by
          rw [encFile_cons, List.append_assoc]] at h2
        rw [h2, getSpec_cons, if_pos rfl]
      · rw [emptySpec_cons, if_neg hf1]

theorem getSpec_state (recs : List (Nat × List Nat)) (hwf : wfRecs recs) :
    ∀ pfxRecs : List (Nat × List Nat), wfRecs pfxRecs →
    ∃ recs' k', wfRecs recs' ∧ k' ≤ recs'.length ∧
      (getSpec (encFile pfxRecs) recs).2 =
        ⟨encFile recs', (encFile (recs'.take k')).length⟩ ∧
      ((∀ r ∈ pfxRecs, r.1 = 1) → ∀ r ∈ recs'.take k', r.1 = 1) := by
  induction recs with
  | nil =>
      intro pfxRecs hwfp
      refine ⟨pfxRecs, pfxRecs.length, hwfp, le_rfl, ?_, ?_⟩
      · rw [getSpec_nil, List.take_length]
      · intro h r hr
        rw [List.take_length] at hr
        exact h r hr
  | cons r rest ih =>
      intro pfxRecs hwfp
      obtain ⟨f, m⟩ := r
      have hm : m.length < 4096 := (hwf (f, m) (List.mem_cons_self _ _)).2
      have hwf' : wfRecs rest := fun r hr => hwf r (List.mem_cons_of_mem _ hr)
      have hwfp' : wfRecs (pfxRecs ++ [(1, m)]) := by
        intro r hr
        rcases List.mem_append.1 hr with h | h
        · exact hwfp r h
        · simp at h
          subst h
          exact ⟨le_rfl, hm⟩
      have hsnoc : encFile pfxRecs ++ encRecord 1 m =
          encFile (pfxRecs ++ [(1, m)]) := by
        rw [encFile_append, encFile_cons, encFile_nil, List.append_nil]
      by_cases hf1 : f = 1
      · subst hf1
        rw [getSpec_cons, if_pos rfl, hsnoc]
        obtain ⟨recs', k', hw, hk, hst, himp⟩ := ih hwf' _ hwfp'
        refine ⟨recs', k', hw, hk, hst, ?_⟩
        intro h
        apply himp
        intro r hr
        rcases List.mem_append.1 hr with h' | h'
        · exact h r h'
        · simp at h'
          subst h'
          rfl
      · rw [getSpec_cons, if_neg hf1]
        refine ⟨pfxRecs ++ [(1, m)] ++ rest, pfxRecs.length + 1, ?_, ?_, ?_, ?_⟩
        · intro r hr
          rw [List.append_assoc] at hr
          rcases List.mem_append.1 hr with h | h
          · exact hwfp r h
          · rcases List.mem_cons.1 h with rfl | h'
            · exact ⟨le_rfl, hm⟩
            · exact hwf' r h'
        · simp only [List.length_append, List.length_cons, List.length_nil]
          omega
        · have htake : (pfxRecs ++ [(1, m)] ++ rest).take (pfxRecs.length + 1) =
              pfxRecs ++ [(1, m)] := by
            apply List.take_left'
            simp
          rw [htake, QState.mk.injEq]
          constructor
          · rw [encFile_append, encFile_append, encFile_cons, encFile_nil]
            simp [List.append_assoc]
          · rw [← hsnoc, List.length_append, encRecord_length]
            omega
        · intro h r hr
          have htake : (pfxRecs ++ [(1, m)] ++ rest).take (pfxRecs.length + 1) =
              pfxRecs ++ [(1, m)] := by
            apply List.take_left'
            simp
          rw [htake] at hr
          rcases List.mem_append.1 hr with h' | h'
          · exact h r h'
          · simp at h'
            subst h'
            rfl

/-- A well-formed reachable-looking queue state: the file is a
concatenation of records and the cursor sits on a record boundary. -/
def EncState (s : QState) : Prop :=
  ∃ recs k, wfRecs recs ∧ k ≤ recs.length ∧
    s = ⟨encFile recs, (encFile (recs.take k)).length⟩

theorem get_EncState (s : QState) (hs : EncState s) :
    ∃ r s', get s = some (r, s') ∧ EncState s' := by
  obtain ⟨recs, k, hwf, hk, rfl⟩ := hs
  have hwfk : wfRecs (recs.take k) := fun r hr =>
    hwf r (List.mem_of_mem_take hr)
  have hwfd : wfRecs (recs.drop k) := fun r hr =>
    hwf r (List.mem_of_mem_drop hr)
  have hget : get ⟨encFile recs, (encFile (recs.take k)).length⟩ =
      some (getSpec (encFile (recs.take k)) (recs.drop k)) := by
    rw [show (⟨encFile recs, (encFile (recs.take k)).length⟩ : QState) =
        ⟨encFile (recs.take k) ++ encFile (recs.drop k),
          (encFile (recs.take k)).length⟩ from by
      rw [← encFile_append, List.take_append_drop]]
    exact get_enc (recs.drop k) hwfd (encFile (recs.take k))
  obtain ⟨recs', k', hw, hk', hst, _⟩ := getSpec_state (recs.drop k) hwfd
    (recs.take k) hwfk
  refine ⟨(getSpec (encFile (recs.take k)) (recs.drop k)).1,
    ⟨encFile recs', (encFile (recs'.take k')).length⟩, ?_, recs', k', hw, hk', rfl⟩
  rw [hget, ← hst]

theorem empty_EncState (s : QState) (hs : EncState s) :
    ∃ r s', empty s = some (r, s') ∧ EncState s' ∧ get s' = get s := by
  obtain ⟨recs, k, hwf, hk, rfl⟩ := hs
  have hwfd : wfRecs (recs.drop k) := fun r hr =>
    hwf r (List.mem_of_mem_drop hr)
  have hsplit : encFile recs =
      encFile (recs.take k) ++ encFile (recs.drop k) := by
    rw [← encFile_append, List.take_append_drop]
  have hempty : empty ⟨encFile recs, (encFile (recs.take k)).length⟩ =
      some (emptySpec (encFile (recs.take k)) (recs.drop k)) := by
    rw [show (⟨encFile recs, (encFile (recs.take k)).length⟩ : QState) =
        ⟨encFile (recs.take k) ++ encFile (recs.drop k),
          (encFile (recs.take k)).length⟩ from by rw [← hsplit]]
    exact empty_enc (recs.drop k) hwfd (encFile (recs.take k))
  obtain ⟨j, hj, _, heq⟩ := emptySpec_props (recs.drop k) hwfd
    (encFile (recs.take k))
  have hstate : (emptySpec (encFile (recs.take k)) (recs.drop k)).2 =
      ⟨encFile recs, (encFile (recs.take (k + j))).length⟩ := by
    rw [heq]
    simp only
    rw [QState.mk.injEq]
    constructor
    · exact hsplit.symm
    · rw [List.take_add, encFile_append, List.length_append]
  refine ⟨(emptySpec (encFile (recs.take k)) (recs.drop k)).1,
    ⟨encFile recs, (encFile (recs.take (k + j))).length⟩, ?_, ?_, ?_⟩
  · rw [hempty, ← hstate]
  · exact ⟨recs, k + j, hwf, by simp at hj; omega, rfl⟩
  · rw [← hstate, emptySpec_getSpec (recs.drop k) hwfd (encFile (recs.take k))]
    congr 1
    rw [← hsplit]

end Squeue

namespace Squeue

open SqueueModel

/-! ## Interleaving `empty` with `get` sequences -/

/-- A sequence of public read operations on one instance: `true` is a
`get` call, `false` an `empty` call.  Returns the list of values the `get`
calls produced and the final state (`none` if any call errored). -/
def runOps : List Bool → QState → Option (List (Option (List Nat)) × QState)
  | [], s => some ([], s)
  | true :: rest, s =>
      match get s with
      | none => none
      | some (r, s') =>
          match runOps rest s' with
          | none => none
          | some (rs, s'') => some (r :: rs, s'')
  | false :: rest, s =>
      match empty s with
      | none => none
      | some (_, s') => runOps rest s'

theorem runOps_cons_true (rest : List Bool) (s : QState) :
    runOps (true :: rest) s =
      match get s with
      | none => none
      | some (r, s') =>
          match runOps rest s' with
          | none => none
          | some (rs, s'') => some (r :: rs, s'') := rfl

theorem runOps_cons_false (rest : List Bool) (s : QState) :
    runOps (false :: rest) s =
      match empty s with
      | none => none
      | some (_, s') => runOps rest s' := rfl

theorem runOps_gets_congr (l : List Bool) (hl : ∀ b ∈ l, b = true) :
    ∀ s₁ s₂ : QState, get s₁ = get s₂ →
      (runOps l s₁).map Prod.fst = (runOps l s₂).map Prod.fst := by
  induction l with
  | nil =>
      intro s₁ s₂ _
      rfl
  | cons b rest ih =>
      intro s₁ s₂ h
      have hb : b = true := hl b (List.mem_cons_self _ _)
      subst hb
      rw [runOps_cons_true, runOps_cons_true, h]

theorem map_fst_cons_step (r : Option (List Nat))
    (o₁ o₂ : Option (List (Option (List Nat)) × QState))
    (h : o₁.map Prod.fst = o₂.map Prod.fst) :
    (match o₁ with
      | none => none
      | some (rs, s'') => some (r :: rs, s'')).map Prod.fst =
    (match o₂ with
      | none => none
      | some (rs, s'') => some (r :: rs, s'')).map Prod.fst := by
  cases o₁ with
  | none =>
      cases o₂ with
      | none => rfl
      | some p => simp at h
  | some p =>
      cases o₂ with
      | none => simp at h
      | some q =>
          obtain ⟨rs, s₁⟩ := p
          obtain ⟨rs', s₂⟩ := q
          have h' : rs = rs' := by simpa using h
          rw [h']
          rfl

/-- **C8**: `empty` is observationally read-only: for every well-formed
queue state and every interleaving of `empty` calls into a sequence of
`get` calls, the list of values the `get` calls return is the same as if
the `empty` calls had not been made. -/
theorem claim_empty_observationally_readonly (s : QState) (hs : EncState s)
    (ops : List Bool) :
    (runOps ops s).map Prod.fst =
      (runOps (ops.filter (fun b => b = true)) s).map Prod.fst := by
  induction ops generalizing s with
  | nil => rfl
  | cons b rest ih =>
      cases b with
      | true =>
          have hfil : (true :: rest).filter (fun b => b = true) =
              true :: rest.filter (fun b => b = true) := by
            simp
          rw [hfil]
          obtain ⟨r, s', hget, hs'⟩ := get_EncState s hs
          rw [runOps_cons_true, runOps_cons_true, hget]
          dsimp only
          exact map_fst_cons_step r _ _ (ih s' hs')
      | false =>
          have hfil : (false :: rest).filter (fun b => b = true) =
              rest.filter (fun b => b = true) := by
            simp
          rw [hfil]
          obtain ⟨r0, s', hempty, hs', hgs⟩ := empty_EncState s hs
          rw [runOps_cons_false, hempty]
          dsimp only
          rw [ih s' hs']
          exact runOps_gets_congr (rest.filter (fun b => b = true))
            (fun b hb => by simpa using (List.mem_filter.1 hb).2) s' s hgs

/-- Witness for C8: an `empty` call interleaved before two `get` calls on
a one-record queue state does not change the values the `get`s return. -/
theorem claim_empty_observationally_readonly_witness :
    (runOps [false, true, true] ⟨encFile [(0, [97])],
        (encFile ([(0, [97])].take 0)).length⟩).map Prod.fst =
      (runOps ([false, true, true].filter (fun b => b = true))
        ⟨encFile [(0, [97])],
          (encFile ([(0, [97])].take 0)).length⟩).map Prod.fst :=
  claim_empty_observationally_readonly
    ⟨encFile [(0, [97])], (encFile ([(0, [97])].take 0)).length⟩
    ⟨[(0, [97])], 0, by decide, by decide, rfl⟩ [false, true, true]

end Squeue

namespace Squeue

open SqueueModel

/-! ## Cursor safety along reachable states -/

theorem get_boundary (recs : List (Nat × List Nat)) (k : Nat)
    (hwf : wfRecs recs) :
    get ⟨encFile recs, (encFile (recs.take k)).length⟩ =
      some (getSpec (encFile (recs.take k)) (recs.drop k)) := by
  have hwfd : wfRecs (recs.drop k) := fun r hr =>
    hwf r (List.mem_of_mem_drop hr)
  rw [show (⟨encFile recs, (encFile (recs.take k)).length⟩ : QState) =
      ⟨encFile (recs.take k) ++ encFile (recs.drop k),
        (encFile (recs.take k)).length⟩ from by
    rw [← encFile_append, List.take_append_drop]]
  exact get_enc (recs.drop k) hwfd (encFile (recs.take k))

theorem empty_boundary (recs : List (Nat × List Nat)) (k : Nat)
    (hwf : wfRecs recs) :
    empty ⟨encFile recs, (encFile (recs.take k)).length⟩ =
      some (emptySpec (encFile (recs.take k)) (recs.drop k)) := by
  have hwfd : wfRecs (recs.drop k) := fun r hr =>
    hwf r (List.mem_of_mem_drop hr)
  rw [show (⟨encFile recs, (encFile (recs.take k)).length⟩ : QState) =
      ⟨encFile (recs.take k) ++ encFile (recs.drop k),
        (encFile (recs.take k)).length⟩ from by
    rw [← encFile_append, List.take_append_drop]]
  exact empty_enc (recs.drop k) hwfd (encFile (recs.take k))

/-- States reachable by a single instance: construction on any well-formed
file (fresh instances start with `read_position = 0`), followed by any
sequence of successful `put`/`get`/`empty` calls by this instance. -/
inductive Reach : QState → Prop where
  | init (recs : List (Nat × List Nat)) (hwf : wfRecs recs) :
      Reach ⟨encFile recs, 0⟩
  | put_step (s s' : QState) (m : List Nat) :
      Reach s → put s m = some s' → Reach s'
  | get_step (s : QState) (r : Option (List Nat)) (s' : QState) :
      Reach s → get s = some (r, s') → Reach s'
  | empty_step (s : QState) (r : Bool) (s' : QState) :
      Reach s → empty s = some (r, s') → Reach s'

/-- The cursor-safety property: the file is a concatenation of records,
the instance's `read_position` sits on a record boundary, and every record
before `read_position` carries the read flag on disk (so no unread record
is ever skipped). -/
def CursorSafe (s : QState) : Prop :=
  ∃ recs k, wfRecs recs ∧ k ≤ recs.length ∧
    (∀ r ∈ recs.take k, r.1 = 1) ∧
    s = ⟨encFile recs, (encFile (recs.take k)).length⟩

/-- **C9**: cursor-safety invariant: in every state reachable by any
sequence of `put`/`get`/`empty` calls of one instance, no record located
before the instance's `read_position` carries the unread flag on disk —
the cursor only ever advances past records confirmed read or past the
record this instance itself just consumed (which `get` flips to read
before advancing).  (The src revision has no token mechanism, so the
claim's token-match proviso is vacuous.) -/
theorem claim_cursor_safety (s : QState) (h : Reach s) : CursorSafe s := by
  induction h with
  | init recs hwf =>
      exact ⟨recs, 0, hwf, Nat.zero_le _, by simp, rfl⟩
  | put_step s s' m hr hput ih =>
      obtain ⟨recs, k, hwf, hk, hread, rfl⟩ := ih
      have hm : m.length < 4096 := by
        by_contra hge
        rw [put_none _ _ (by omega)] at hput
        exact Option.noConfusion hput
      rw [put_eq _ _ hm] at hput
      have hs' : s' = ⟨encFile recs ++ encRecord 0 m,
          (encFile (recs.take k)).length⟩ := (Option.some.inj hput).symm
      subst hs'
      refine ⟨recs ++ [(0, m)], k, ?_, ?_, ?_, ?_⟩
      · intro r hr'
        rcases List.mem_append.1 hr' with h' | h'
        · exact hwf r h'
        · simp at h'
          subst h'
          exact ⟨by omega, hm⟩
      · rw [List.length_append]
        simp only [List.length_cons, List.length_nil]
        omega
      · rw [List.take_append_of_le_length hk]
        exact hread
      · rw [QState.mk.injEq]
        constructor
        · rw [encFile_append, encFile_cons, encFile_nil, List.append_nil]
        · rw [List.take_append_of_le_length hk]
  | get_step s r s' hr hget ih =>
      obtain ⟨recs, k, hwf, hk, hread, rfl⟩ := ih
      have hwfk : wfRecs (recs.take k) := fun r hr' =>
        hwf r (List.mem_of_mem_take hr')
      have hwfd : wfRecs (recs.drop k) := fun r hr' =>
        hwf r (List.mem_of_mem_drop hr')
      rw [get_boundary recs k hwf] at hget
      have hpair := Option.some.inj hget
      have hs' : s' = (getSpec (encFile (recs.take k)) (recs.drop k)).2 := by
        rw [hpair]
      obtain ⟨recs', k', hw, hk', hst, himp⟩ :=
        getSpec_state (recs.drop k) hwfd (recs.take k) hwfk
      exact ⟨recs', k', hw, hk', himp hread, by rw [hs', hst]⟩
  | empty_step s r s' hr hempty ih =>
      obtain ⟨recs, k, hwf, hk, hread, rfl⟩ := ih
      have hwfd : wfRecs (recs.drop k) := fun r hr' =>
        hwf r (List.mem_of_mem_drop hr')
      rw [empty_boundary recs k hwf] at hempty
      have hpair := Option.some.inj hempty
      have hs' : s' = (emptySpec (encFile (recs.take k)) (recs.drop k)).2 := by
        rw [hpair]
      obtain ⟨j, hj, hjread, heq⟩ := emptySpec_props (recs.drop k) hwfd
        (encFile (recs.take k))
      refine ⟨recs, k + j, hwf, by simp at hj; omega, ?_, ?_⟩
      · intro rr hrr
        rw [List.take_add] at hrr
        rcases List.mem_append.1 hrr with h' | h'
        · exact hread rr h'
        · exact hjread rr h'
      · rw [hs', heq]
        simp only
        rw [QState.mk.injEq]
        constructor
        · rw [← encFile_append, List.take_append_drop]
        · rw [List.take_add, encFile_append, List.length_append]

/-- Witness for C9: the empty fresh-queue state is reachable and
cursor-safe. -/
theorem claim_cursor_safety_witness : CursorSafe ⟨[], 0⟩ :=
  claim_cursor_safety ⟨[], 0⟩ (Reach.init [] (by decide))

end Squeue
